import Mathlib

/-!
# Verification development for the juicydb storage engine

This file gives a shallow embedding of the juicydb sources (`src/db.rs`,
`src/parser.rs`, `src/storage_manager.rs`, `src/btree.rs`) and settles the
frozen claims about them.

Conventions of the embedding:
* Rust `Vec<T>` becomes `List T`; fixed-size arrays `[T; n]` become functions
  `Fin n → T`; `u8` becomes `Fin 256`; `u32` values are `Nat` (the decoder
  only ever produces values `< 2 ^ 32`, and no arithmetic that could overflow
  is performed on them); `i64` becomes `Int`; `String` stays `String`.
* Fallible Rust code (`Result`, `Option`) becomes `Except` / `Option`.
  A Rust method on `&mut self` returning `Result<(), E>` becomes a pure
  function returning the new state paired with an `Except E Unit`.
* A `panic!` in the source is a distinguished outcome constructor of the
  result type, so that panics are observable in theorems.
-/

/-! ## Embedding of `src/db.rs` -/

/-- `db.rs`: `enum DBType { Integer, Text }`. -/
inductive DBType where
  | integer
  | text
deriving DecidableEq, Repr

/-- `db.rs`: `enum DBValue { Integer(i64), Text(String) }`. -/
inductive DBValue where
  | integer (i : Int)
  | text (s : String)
deriving DecidableEq, Repr

/-- `db.rs`: `DBValue::val_to_type`. -/
def DBValue.val_to_type : DBValue → DBType
  | .integer _ => .integer
  | .text _ => .text

/-- `db.rs`: `type Row = Vec<DBValue>;`. -/
abbrev Row := List DBValue

/-- `db.rs`: `struct Schema { schema: Vec<(String, DBType)> }`. -/
structure Schema where
  schema : List (String × DBType)
deriving DecidableEq, Repr

/-- `db.rs`: `self.schema.iter().position(|(f, _)| f == &col)` — the physical
index of the column named `col` in the schema, used by
`Schema::get_column_indices`. -/
def Schema.colIdx (s : Schema) (col : String) : Option Nat :=
  s.schema.findIdx? (fun p => p.1 == col)

/-- `db.rs`: `Schema::get_column_indices`: looks up the index of every
requested column in order, failing (via `?`) on the first absent column. -/
def Schema.get_column_indices (s : Schema) (columns : List String) : Option (List Nat) :=
  match columns with
  | [] => some []
  | col :: tl =>
    match s.colIdx col with
    | none => none
    | some i => (s.get_column_indices tl).map (fun rest => i :: rest)

/-- `db.rs`: `Schema::type_check`: fails if the length differs from the
schema, or if any position's type differs. -/
def Schema.type_check (s : Schema) (columns : List DBType) : Option Unit :=
  if columns.length = s.schema.length then
    if ((s.schema.map (fun p => p.2)).zip columns).all (fun p => p.1 == p.2) then
      some ()
    else none
  else none

/-- `db.rs`: `struct Table { schema: Schema, rows: Vec<Row> }`. -/
structure Table where
  schema : Schema
  rows : List Row
deriving DecidableEq, Repr

/-- `db.rs`: `Table::new`: a table with the given schema and no rows. -/
def Table.new (schema : Schema) : Table :=
  { schema := schema, rows := [] }

/-! ## Embedding of the statement types of `src/parser.rs`

Only the AST datatypes are embedded (the storage-manager claims are about
`StorageManager::query`, which consumes a `Statement`); the text parser
itself is not involved in any claim. -/

/-- `parser.rs`: `type Identifier = String;`. -/
abbrev Identifier := String

/-- `parser.rs`: `struct Selector { table: Identifier, field: Identifier }`. -/
structure Selector where
  table : Identifier
  field : Identifier
deriving DecidableEq, Repr

/-- `parser.rs`: `enum ConditionLiteral`. -/
inductive ConditionLiteral where
  | eq (a b : Selector)
  | neq (a b : Selector)
  | lt (a b : Selector)
  | lte (a b : Selector)
  | gt (a b : Selector)
  | gte (a b : Selector)
deriving DecidableEq, Repr

/-- `parser.rs`: `enum Condition`. -/
inductive Condition where
  | literal (l : ConditionLiteral)
  | not (c : Condition)
  | and (a b : Condition)
  | or (a b : Condition)
deriving DecidableEq, Repr

/-- `parser.rs`: `enum Statement`. -/
inductive Statement where
  | select (columns : List Identifier) (table : Identifier) (condition : Option Condition)
  | createTable (table : Identifier) (columns : List (Identifier × DBType))
  | insertInto (table : Identifier) (values : List DBValue)
deriving DecidableEq, Repr

/-- Discriminator for the `Statement::Select` variant (the `if let` in
`StorageManager::query`). -/
def Statement.isSelect : Statement → Bool
  | .select _ _ _ => true
  | _ => false

/-! ## Embedding of `src/storage_manager.rs` -/

/-- `storage_manager.rs`: `enum StorageError`. -/
inductive StorageError where
  | tableNotFound
  | schemaMismatch
  | typeError
  | tableNameAlreadyInUse
deriving DecidableEq, Repr

/-- `storage_manager.rs`: `struct StorageManager { tables: HashMap<String, Table> }`.
The hash map is embedded as an association list; the source only uses
point-wise `contains_key` / `get` / `get_mut` / `insert`, whose observable
behaviour an association list reproduces. -/
structure StorageManager where
  tables : List (String × Table)
deriving DecidableEq, Repr

/-- `HashMap::get` / `get_mut`: the table registered under `name`. -/
def StorageManager.find (sm : StorageManager) (name : String) : Option Table :=
  (sm.tables.find? (fun p => p.1 == name)).map (fun p => p.2)

/-- `HashMap::contains_key`. -/
def StorageManager.containsName (sm : StorageManager) (name : String) : Bool :=
  (sm.tables.find? (fun p => p.1 == name)).isSome

/-- `StorageManager::create_table`. `HashMap::insert` on a key that is absent
(guaranteed by the preceding `contains_key` check) registers a new entry. -/
def StorageManager.create_table (sm : StorageManager) (name : String) (schema : Schema) :
    StorageManager × Except StorageError Unit :=
  if sm.containsName name then
    (sm, .error .tableNameAlreadyInUse)
  else
    ({ tables := sm.tables ++ [(name, Table.new schema)] }, .ok ())

/-- The `table.push(values)` step of `StorageManager::insert_into`: append the
row to the named table, in place. -/
def StorageManager.pushRow (sm : StorageManager) (name : String) (values : Row) :
    StorageManager :=
  { tables :=
      sm.tables.map (fun p =>
        if p.1 == name then (p.1, { p.2 with rows := p.2.rows ++ [values] }) else p) }

/-- `storage_manager.rs`: `StorageManager::insert_into`. -/
def StorageManager.insert_into (sm : StorageManager) (table : String) (values : List DBValue) :
    StorageManager × Except StorageError Unit :=
  match sm.find table with
  | none => (sm, .error .tableNotFound)
  | some t =>
    match t.schema.type_check (values.map DBValue.val_to_type) with
    | none => (sm, .error .typeError)
    | some _ => (sm.pushRow table values, .ok ())

/-- `storage_manager.rs`: `StorageManager::query`. The Rust row indexing
`row[*i]` is embedded as `List.getD`; the indices produced by
`get_column_indices` are always within the schema, and rows produced by
`insert_into` have exactly one value per schema column, so the default is
never consulted for states built through the public interface. -/
def StorageManager.query (sm : StorageManager) (query : Statement) :
    Except StorageError (List Row) :=
  match query with
  | .select columns table _ =>
    match sm.find table with
    | none => .error .tableNotFound
    | some t =>
      match t.schema.get_column_indices columns with
      | none => .error .schemaMismatch
      | some indices =>
        .ok (t.rows.map (fun row => indices.map (fun i => row.getD i (DBValue.integer 0))))
  | _ => .ok []

/-! ## Embedding of `src/btree.rs`

`BTreeNode::read` is the only executable function in `btree.rs` (the `BTree`
impl block and the `Cell` structure are commented out, and the `Leaf` arm of
`read` contains only empty blocks and does not construct a node). The
embedding makes every outcome of `read` observable:

* the `Internal` arm (tag byte `b'0'` = `0x30`) succeeds, or panics with
  "Invalid freecell list" when a free-slot flag byte is neither `b'0'`
  (`0x30`) nor `b'1'` (`0x31`);
* the `Leaf` arm (tag byte `b'1'` = `0x31`) is unimplemented in the source —
  its `let` bindings are empty blocks and no `BTreeNode` value is built — and
  is embedded as the distinguished outcome `leafUnimplemented`;
* any other tag byte panics with "Invalid enum flag".
-/

/-- A 4096-byte page: `[u8; 4096]`. -/
abbrev Page := Fin 4096 → Fin 256

/-- `btree.rs`: `struct KeyCell { key: u32, page_id: u32 }`. The `u32` fields
are embedded as `Nat`; the decoder only ever builds values `< 2 ^ 32`. -/
structure KeyCell where
  key : Nat
  page_id : Nat
deriving DecidableEq, Repr

/-- `btree.rs`: `enum BTreeNode`. -/
inductive BTreeNode where
  | internal (freecells : Fin 256 → Bool) (pointers : Fin 256 → Fin 256)
      (cells : Fin 256 → KeyCell)
  | leaf (freecells : Fin 64 → Bool) (pointers : Fin 64 → Fin 256)
      (data_cells : Fin 64 → Row)

/-- The observable outcomes of `BTreeNode::read`. -/
inductive ReadResult where
  | ok (node : BTreeNode)
  | panicInvalidFreecellList
  | panicInvalidEnumFlag
  | leafUnimplemented

/-- `true` exactly on the two `panic!` outcomes of `BTreeNode::read`. -/
def ReadResult.isPanicking : ReadResult → Bool
  | .panicInvalidFreecellList => true
  | .panicInvalidEnumFlag => true
  | _ => false

/-- `btree.rs`: `BTreeNode::read`. Byte for byte:
* `input[0]`: `b'0'` (48) selects the `Internal` arm, `b'1'` (49) the
  unimplemented `Leaf` arm, anything else panics "Invalid enum flag";
* `input[1..257]`: free-slot flags, `b'0'` ↦ `false`, `b'1'` ↦ `true`,
  anything else panics "Invalid freecell list";
* `input[1792..2048]`: the 256 pointer bytes, copied;
* `input[i*8+2048 .. i*8+2056]`: cell `i`, a big-endian `u32` key
  (`(b0 << 24) | (b1 << 16) | (b2 << 8) | b3`) followed by a big-endian
  `u32` page id. -/
def BTreeNode.read (input : Page) : ReadResult :=
  if input ⟨0, by omega⟩ = 48 then
    if h : ∀ i, (hi : i < 256) → input ⟨1 + i, by omega⟩ = 48 ∨ input ⟨1 + i, by omega⟩ = 49 then
      ReadResult.ok (BTreeNode.internal
        (fun i => input ⟨1 + i.val, by omega⟩ == 49)
        (fun i => input ⟨1792 + i.val, by omega⟩)
        (fun i =>
          { key :=
              ((input ⟨i.val * 8 + 2048, by omega⟩ : Fin 256).val <<< 24) |||
                ((input ⟨i.val * 8 + 2049, by omega⟩ : Fin 256).val <<< 16) |||
                ((input ⟨i.val * 8 + 2050, by omega⟩ : Fin 256).val <<< 8) |||
                (input ⟨i.val * 8 + 2051, by omega⟩ : Fin 256).val
            page_id :=
              ((input ⟨i.val * 8 + 2052, by omega⟩ : Fin 256).val <<< 24) |||
                ((input ⟨i.val * 8 + 2053, by omega⟩ : Fin 256).val <<< 16) |||
                ((input ⟨i.val * 8 + 2054, by omega⟩ : Fin 256).val <<< 8) |||
                (input ⟨i.val * 8 + 2055, by omega⟩ : Fin 256).val }))
    else ReadResult.panicInvalidFreecellList
  else if input ⟨0, by omega⟩ = 49 then
    ReadResult.leafUnimplemented
  else ReadResult.panicInvalidEnumFlag

/-- Truncate a `Nat` to its low byte. -/
def lowByte (x : Nat) : Fin 256 :=
  ⟨x % 256, Nat.mod_lt _ (by omega)⟩

/-- Modelled from the spec: the encoder for `Internal` nodes, which is absent
from the source (`btree.rs` contains no serialization code for nodes; the
commented-out `BTree::serialize` only sketches a header page). Field layout
follows §4.2 of the spec: byte 0 is the kind tag `0x00` for Internal; bytes
1..257 are the free-slot flags, `0x00` = free, `0x01` = occupied; bytes
1792..2048 are the slot-directory bytes; from byte 2048 each slot holds a
4-byte big-endian key and a 4-byte big-endian child page id; remaining bytes
are reserved padding (zero). -/
def writeInternal (freecells : Fin 256 → Bool) (pointers : Fin 256 → Fin 256)
    (cells : Fin 256 → KeyCell) : Page :=
  fun j =>
    if j.val = 0 then 0
    else if h1 : 1 ≤ j.val ∧ j.val < 257 then
      (if freecells ⟨j.val - 1, by omega⟩ then 1 else 0)
    else if h2 : 1792 ≤ j.val ∧ j.val < 2048 then
      pointers ⟨j.val - 1792, by omega⟩
    else if h3 : 2048 ≤ j.val then
      let o := j.val - 2048
      let c := cells ⟨o / 8, by omega⟩
      let r := o % 8
      if r < 4 then lowByte (c.key >>> (8 * (3 - r)))
      else lowByte (c.page_id >>> (8 * (7 - r)))
    else 0

/-- The all-`b'0'` page: tag byte `b'0'` (Internal), every flag byte `b'0'`
(free), every pointer and cell byte `b'0'`. -/
def pageAscii0 : Page := fun _ => 48

/-- A page whose kind tag byte is `0x02` and whose remaining bytes are all
`b'0'`. -/
def pageTag2 : Page := fun j => if j.val = 0 then 2 else 48

/-- The all-zero page: kind tag `0x00` and all-`0x00` flag bytes, i.e. a
well-formed Internal page under the byte layout documented in the spec. -/
def pageZero : Page := fun _ => 0

/-- The node that `BTreeNode::read` produces on `pageAscii0`: all slots free,
all pointer bytes `0x30`, every cell the big-endian reading `0x30303030` of
four `b'0'` bytes. -/
def nodeAscii0 : BTreeNode :=
  BTreeNode.internal (fun _ => false) (fun _ => 48)
    (fun _ => { key := 808464432, page_id := 808464432 })

/-- The `freecells` array of an `Internal` node, if the node is internal. -/
def BTreeNode.internalFreecells : BTreeNode → Option (Fin 256 → Bool)
  | .internal freecells _ _ => some freecells
  | _ => none

/-! ## Spec-modelled B-tree engine (§4.3–§4.4 of the spec)

`btree.rs` declares `struct BTree` but implements no operations on it: the
whole `impl BTree` block is commented out, and no lookup, insert, split or
scan code exists anywhere in the repository. The engine below is therefore
modelled from the spec, at the logical level of nodes and rank-ordered cell
lists:

* a node's slot directory together with its free-slot flags determines a
  rank-ordered sequence of occupied cells; the model stores that sequence
  directly as a sorted list (the physical slot indirection is a memory-layout
  device that the spec itself describes as establishing "ascending-key order
  without moving cell storage");
* the spec's §9 note allows an internal node to be represented with "an
  explicit leftmost child field outside the cell array" in place of the
  reserved low-sentinel slot, which is the representation used here: a
  leftmost child plus up to 255 `(separator, child)` cells, i.e. up to 256
  children — the documented Internal capacity; a leaf holds up to 64 cells;
* page-store indirection (child `PageId`s) is modelled by direct child
  subtrees; `allocate_page` always succeeds, matching the claims'
  "monotonically allocable pages" proviso;
* `Lookup` descends by "the directory entry with the largest key ≤ target,
  or the sentinel leftmost child if the key is below all stored keys", and at
  a leaf looks for an exact key match (§4.4); searching a sorted list gives
  the same result as the binary search the spec mentions;
* `Insert` descends to the target leaf, overwrites on duplicate keys,
  otherwise inserts at the key-ordered rank; a full node splits, keeping the
  lower half and moving the upper half (by rank) to a freshly allocated
  sibling, promoting as separator the smallest key of the right node (for a
  leaf) or the middle separator (for an internal node); a split of the root
  allocates a new root with the two halves as children (§4.4);
* `CapacityExceeded` (§7) is reported exactly when a split cannot place the
  node's cells within two nodes of capacity — the situation the spec calls
  "a logic defect ... treated as fatal/unreachable".
-/

/-- Modelled from the spec: a B-tree node. `leaf` holds up to 64 data cells
in ascending key order; `internal` holds a leftmost sentinel child and up to
255 separator cells in ascending key order (256 children in total). -/
inductive MTree where
  | leaf (cells : List (Nat × Row))
  | internal (first : MTree) (rest : List (Nat × MTree))

/-- Modelled from the spec: a freshly created table's tree — a single empty
leaf root. -/
def emptyTree : MTree := .leaf []

/-- Modelled from the spec: insertion into a leaf's rank-ordered cell list —
place the new cell at its key-ordered rank, overwriting on a duplicate key
("duplicate keys overwrite the existing row", §4.4). -/
def insertCells (cells : List (Nat × Row)) (k : Nat) (v : Row) : List (Nat × Row) :=
  match cells with
  | [] => [(k, v)]
  | (k', v') :: tl =>
    if k < k' then (k, v) :: (k', v') :: tl
    else if k = k' then (k, v) :: tl
    else (k', v') :: insertCells tl k v

/-- Modelled from the spec: exact-match search in a leaf's rank-ordered cell
list (§4.4 "binary-search its directory for an exact key match"). -/
def lookupCells (cells : List (Nat × Row)) (k : Nat) : Option Row :=
  (cells.find? (fun p => p.1 == k)).map (fun p => p.2)

/-- Modelled from the spec: the result of inserting into a subtree — either
the updated subtree, or the two nodes of a split together with the promoted
separator key (§9 "recursive function returning an optional promoted
separator"). -/
inductive InsRes where
  | one (t : MTree)
  | split (l : MTree) (sep : Nat) (r : MTree)

/-- Modelled from the spec: the `CapacityExceeded` error kind of §7. -/
inductive CapErr where
  | capacityExceeded
deriving DecidableEq, Repr

mutual

/-- Modelled from the spec: `Lookup(key)` (§4.4): while the node is internal,
descend to the child whose key range contains the key; at a leaf, exact-match
search. -/
def MTree.lookup (t : MTree) (k : Nat) : Option Row :=
  match t with
  | .leaf cells => lookupCells cells k
  | .internal first rest => MTree.lookupFrom first rest k
termination_by sizeOf t
decreasing_by all_goals (simp_wf <;> omega)

/-- Modelled from the spec: child routing of `Lookup` — descend into the
child governed by "the directory entry with the largest key ≤ target, or the
sentinel leftmost child if the key is below all stored keys" (§4.4). -/
def MTree.lookupFrom (cur : MTree) (rest : List (Nat × MTree)) (k : Nat) : Option Row :=
  match rest with
  | [] => cur.lookup k
  | (s, c) :: tl => if k < s then cur.lookup k else MTree.lookupFrom c tl k
termination_by sizeOf cur + sizeOf rest
decreasing_by all_goals (simp_wf <;> omega)

end

mutual

/-- Modelled from the spec: `Insert(key, row)` (§4.4): descend to the target
leaf and insert there — duplicates overwrite; a full leaf (64 cells) splits,
keeping the lower 32 cells and moving the upper 33 (by rank) to a new page
whose smallest key is promoted; an internal node that ends up with 257
children splits around its middle separator. `CapacityExceeded` is reported
exactly when a node's cells cannot be placed within capacity by one split. -/
def MTree.insertE (t : MTree) (k : Nat) (v : Row) : Except CapErr InsRes :=
  match t with
  | .leaf cells =>
    let cells' := insertCells cells k v
    if cells'.length ≤ 64 then .ok (.one (.leaf cells'))
    else
      match cells'.drop 32 with
      | [] => .error .capacityExceeded
      | hd :: tl =>
        if cells'.length = 65 then
          .ok (.split (.leaf (cells'.take 32)) hd.1 (.leaf (hd :: tl)))
        else .error .capacityExceeded
  | .internal first rest =>
    match MTree.insertFrom first rest k v with
    | .error e => .error e
    | .ok (first', rest') =>
      if rest'.length ≤ 255 then .ok (.one (.internal first' rest'))
      else
        match rest'.drop 128 with
        | [] => .error .capacityExceeded
        | (s, c) :: tl2 =>
          if rest'.length = 256 then
            .ok (.split (.internal first' (rest'.take 128)) s (.internal c tl2))
          else .error .capacityExceeded
termination_by sizeOf t
decreasing_by all_goals (simp_wf <;> omega)

/-- Modelled from the spec: descend-and-splice step of `Insert` on an
internal node's children: route to the governed child exactly as `Lookup`
does, then either replace that child or splice in the two halves and the
promoted separator produced by its split. -/
def MTree.insertFrom (cur : MTree) (rest : List (Nat × MTree)) (k : Nat) (v : Row) :
    Except CapErr (MTree × List (Nat × MTree)) :=
  match rest with
  | [] =>
    match cur.insertE k v with
    | .error e => .error e
    | .ok (.one c') => .ok (c', [])
    | .ok (.split l s r) => .ok (l, [(s, r)])
  | (s0, c0) :: tl =>
    if k < s0 then
      match cur.insertE k v with
      | .error e => .error e
      | .ok (.one c') => .ok (c', (s0, c0) :: tl)
      | .ok (.split l s r) => .ok (l, (s, r) :: (s0, c0) :: tl)
    else
      match MTree.insertFrom c0 tl k v with
      | .error e => .error e
      | .ok (c0', tl') => .ok (cur, (s0, c0') :: tl')
termination_by sizeOf cur + sizeOf rest
decreasing_by all_goals (simp_wf <;> omega)

end

/-- Modelled from the spec: a whole-tree insert: a split of the root
allocates a brand-new internal root with the two halves as its children
(§4.4 "tree height increases by exactly one on this path"). -/
def MTree.insertTopE (t : MTree) (k : Nat) (v : Row) : Except CapErr MTree :=
  match t.insertE k v with
  | .error e => .error e
  | .ok (.one t') => .ok t'
  | .ok (.split l s r) => .ok (.internal l [(s, r)])

/-- A sequence of inserts, left to right. -/
def MTree.insertAll (t : MTree) (ops : List (Nat × Row)) : Except CapErr MTree :=
  match ops with
  | [] => .ok t
  | (k, v) :: tl =>
    match t.insertTopE k v with
    | .error e => .error e
    | .ok t' => t'.insertAll tl

/-- An optional inclusive lower bound: every key of a subtree governed by
separator `a` is `≥ a` (§3 key-range invariant); `none` is "no bound". -/
def loLe : Option Nat → Nat → Prop
  | none, _ => True
  | some a, k => a ≤ k

/-- An optional strict upper bound: every key of a child is `<` the next
separator (§3 key-range invariant); `none` is "no bound". -/
def ltHi : Nat → Option Nat → Prop
  | _, none => True
  | k, some b => k < b

/-- An optional non-strict upper bound, used for separators themselves: a
separator is `≤` the upper end of its node's governed range (it may equal
the parent separator above it). -/
def leHi : Nat → Option Nat → Prop
  | _, none => True
  | k, some b => k ≤ b

/-- A key within the range `[lo, hi)` of a subtree. -/
def inB (lo hi : Option Nat) (k : Nat) : Prop :=
  loLe lo k ∧ ltHi k hi

mutual

/-- All data cells of a subtree, in ascending rank (in-order) sequence. -/
def MTree.entries (t : MTree) : List (Nat × Row) :=
  match t with
  | .leaf cells => cells
  | .internal first rest => MTree.entriesFrom first rest
termination_by sizeOf t

/-- In-order concatenation of the data cells below a leftmost child and the
children of the following separator cells. -/
def MTree.entriesFrom (cur : MTree) (rest : List (Nat × MTree)) : List (Nat × Row) :=
  match rest with
  | [] => cur.entries
  | (_, c) :: tl => cur.entries ++ MTree.entriesFrom c tl
termination_by sizeOf cur + sizeOf rest
decreasing_by all_goals (simp_wf <;> omega)

end

mutual

/-- The well-formedness invariant of the modelled engine (§3, §4.3): every
node is within capacity (≤ 64 leaf cells; ≤ 255 separator cells, i.e. ≤ 256
children), leaf cells are strictly ascending in key, and every key lies in
the node's governed range `[lo, hi)`. -/
def MTree.wf (lo hi : Option Nat) (t : MTree) : Prop :=
  match t with
  | .leaf cells =>
    cells.length ≤ 64 ∧ cells.Pairwise (fun p q => p.1 < q.1) ∧
      ∀ p ∈ cells, inB lo hi p.1
  | .internal first rest => rest.length ≤ 255 ∧ MTree.wfFrom lo hi first rest
termination_by sizeOf t

/-- Range discipline along an internal node's children: the current child
governs `[lo, s)` for the next separator `s` (or `[lo, hi)` if none follows),
and each separator lies in `[lo, hi)`. -/
def MTree.wfFrom (lo hi : Option Nat) (cur : MTree) (rest : List (Nat × MTree)) : Prop :=
  match rest with
  | [] => MTree.wf lo hi cur
  | (s, c) :: tl =>
    loLe lo s ∧ leHi s hi ∧ MTree.wf lo (some s) cur ∧ MTree.wfFrom (some s) hi c tl
termination_by sizeOf cur + sizeOf rest
decreasing_by all_goals (simp_wf <;> omega)

end

mutual

/-- The fanout bounds alone (claim C7): no internal node with more than 256
children (255 separator cells + the leftmost child), no leaf with more than
64 cells. -/
def MTree.capOK (t : MTree) : Prop :=
  match t with
  | .leaf cells => cells.length ≤ 64
  | .internal first rest => rest.length ≤ 255 ∧ first.capOK ∧ MTree.capOKAll rest
termination_by sizeOf t

/-- `capOK` for every child of a separator-cell list. -/
def MTree.capOKAll (rest : List (Nat × MTree)) : Prop :=
  match rest with
  | [] => True
  | (_, c) :: tl => c.capOK ∧ MTree.capOKAll tl
termination_by sizeOf rest
decreasing_by all_goals (simp_wf <;> omega)

end

mutual

/-- Simultaneous induction for `MTree` and the child lists of internal
nodes, following the recursion pattern of the engine's functions. -/
def mtreeRecP (P : MTree → Prop) (Q : MTree → List (Nat × MTree) → Prop)
    (hleaf : ∀ cells, P (.leaf cells))
    (hnode : ∀ first rest, Q first rest → P (.internal first rest))
    (hnil : ∀ cur, P cur → Q cur [])
    (hcons : ∀ cur s c tl, P cur → Q c tl → Q cur ((s, c) :: tl))
    (t : MTree) : P t :=
  match t with
  | .leaf cells => hleaf cells
  | .internal first rest =>
    hnode first rest (mtreeRecQ P Q hleaf hnode hnil hcons first rest)
termination_by sizeOf t

/-- Companion of `mtreeRecP` for a leftmost child paired with a separator
cell list. -/
def mtreeRecQ (P : MTree → Prop) (Q : MTree → List (Nat × MTree) → Prop)
    (hleaf : ∀ cells, P (.leaf cells))
    (hnode : ∀ first rest, Q first rest → P (.internal first rest))
    (hnil : ∀ cur, P cur → Q cur [])
    (hcons : ∀ cur s c tl, P cur → Q c tl → Q cur ((s, c) :: tl))
    (cur : MTree) (rest : List (Nat × MTree)) : Q cur rest :=
  match rest with
  | [] => hnil cur (mtreeRecP P Q hleaf hnode hnil hcons cur)
  | (s, c) :: tl =>
    hcons cur s c tl (mtreeRecP P Q hleaf hnode hnil hcons cur)
      (mtreeRecQ P Q hleaf hnode hnil hcons c tl)
termination_by sizeOf cur + sizeOf rest
decreasing_by all_goals (simp_wf <;> omega)

end

/-- Byte-level well-formedness of a page under the byte layout documented in
the spec (§4.2): the kind tag byte is `0x00` or `0x01` and every free-slot
flag byte is `0x00` or `0x01` (the Internal count of 256 flag bytes is
checked; the first 64 of them are the Leaf flag bytes). -/
def specPageWF (p : Page) : Bool :=
  ((p ⟨0, by omega⟩ == 0) || (p ⟨0, by omega⟩ == 1)) &&
    (List.finRange 256).all
      (fun i => (p ⟨1 + i.val, by omega⟩ == 0) || (p ⟨1 + i.val, by omega⟩ == 1))

/-! ## Helper lemmas -/

/-- Packing a value above `k` zero bits with a `k`-bit value: bitwise or is
addition. -/
theorem lor_pack : ∀ (k a b : Nat), b < 2 ^ k → a * 2 ^ k ||| b = a * 2 ^ k + b := by
  intro k
  induction k with
  | zero =>
    intro a b hb
    have hb0 : b = 0 := by omega
    subst hb0
    simp
  | succ k ih =>
    intro a b hb
    have hpow : 2 ^ (k + 1) = 2 * 2 ^ k := by ring
    have hb2 : Nat.div2 b < 2 ^ k := by
      rw [Nat.div2_val]
      omega
    have h1 : a * 2 ^ (k + 1) = Nat.bit false (a * 2 ^ k) := by
      rw [Nat.bit_val]
      simp
      ring
    have h2 : b = Nat.bit (Nat.bodd b) (Nat.div2 b) := (Nat.bit_decomp b).symm
    calc a * 2 ^ (k + 1) ||| b
        = Nat.bit false (a * 2 ^ k) ||| Nat.bit (Nat.bodd b) (Nat.div2 b) := by
          rw [← h1, ← h2]
      _ = Nat.bit (false || Nat.bodd b) ((a * 2 ^ k) ||| Nat.div2 b) := Nat.lor_bit _ _ _ _
      _ = Nat.bit (Nat.bodd b) (a * 2 ^ k + Nat.div2 b) := by rw [ih _ _ hb2, Bool.false_or]
      _ = a * 2 ^ (k + 1) + b := by
          have h3 : b = 2 * Nat.div2 b + (Nat.bodd b).toNat := by
            conv_lhs => rw [← Nat.bit_decomp b]
            rw [Nat.bit_val]
          rw [Nat.bit_val, hpow]
          have h4 : a * (2 * 2 ^ k) = 2 * (a * 2 ^ k) := by ring
          rw [h4]
          omega

/-- The source's shift-and-or combination of four bytes is the big-endian
32-bit reading of those bytes. -/
theorem be32_pack (a b c d : Nat) (hb : b < 256) (hc : c < 256) (hd : d < 256) :
    (a <<< 24) ||| (b <<< 16) ||| (c <<< 8) ||| d
      = a * 2 ^ 24 + b * 2 ^ 16 + c * 2 ^ 8 + d := by
  rw [Nat.shiftLeft_eq, Nat.shiftLeft_eq, Nat.shiftLeft_eq]
  have h1 : a * 2 ^ 24 ||| b * 2 ^ 16 = a * 2 ^ 24 + b * 2 ^ 16 := by
    apply lor_pack
    norm_num
    omega
  rw [h1]
  have h2 : a * 2 ^ 24 + b * 2 ^ 16 = (a * 2 ^ 8 + b) * 2 ^ 16 := by ring
  rw [h2]
  have h3 : (a * 2 ^ 8 + b) * 2 ^ 16 ||| c * 2 ^ 8 = (a * 2 ^ 8 + b) * 2 ^ 16 + c * 2 ^ 8 := by
    apply lor_pack
    norm_num
    omega
  rw [h3]
  have h4 : (a * 2 ^ 8 + b) * 2 ^ 16 + c * 2 ^ 8 = ((a * 2 ^ 8 + b) * 2 ^ 8 + c) * 2 ^ 8 := by
    ring
  rw [h4]
  have h5 : ((a * 2 ^ 8 + b) * 2 ^ 8 + c) * 2 ^ 8 ||| d
      = ((a * 2 ^ 8 + b) * 2 ^ 8 + c) * 2 ^ 8 + d := by
    apply lor_pack
    norm_num
    omega
  rw [h5]

/-- Inversion for `BTreeNode.read`: a successful decode forces the ASCII
Internal tag, ASCII-valid flag bytes, and determines the node. -/
theorem read_ok_inv (p : Page) (node : BTreeNode) (h : BTreeNode.read p = .ok node) :
    p ⟨0, by omega⟩ = 48 ∧
      (∀ i, (hi : i < 256) → p ⟨1 + i, by omega⟩ = 48 ∨ p ⟨1 + i, by omega⟩ = 49) ∧
      node = BTreeNode.internal
        (fun i => p ⟨1 + i.val, by omega⟩ == 49)
        (fun i => p ⟨1792 + i.val, by omega⟩)
        (fun i =>
          { key :=
              ((p ⟨i.val * 8 + 2048, by omega⟩ : Fin 256).val <<< 24) |||
                ((p ⟨i.val * 8 + 2049, by omega⟩ : Fin 256).val <<< 16) |||
                ((p ⟨i.val * 8 + 2050, by omega⟩ : Fin 256).val <<< 8) |||
                (p ⟨i.val * 8 + 2051, by omega⟩ : Fin 256).val
            page_id :=
              ((p ⟨i.val * 8 + 2052, by omega⟩ : Fin 256).val <<< 24) |||
                ((p ⟨i.val * 8 + 2053, by omega⟩ : Fin 256).val <<< 16) |||
                ((p ⟨i.val * 8 + 2054, by omega⟩ : Fin 256).val <<< 8) |||
                (p ⟨i.val * 8 + 2055, by omega⟩ : Fin 256).val }) := by
  unfold BTreeNode.read at h
  split at h
  · split at h
    · rename_i h0 hf
      refine ⟨h0, hf, ?_⟩
      injection h with h'
      exact h'.symm
    · simp at h
  · split at h
    · simp at h
    · simp at h

/-- Construction for `BTreeNode.read`: an ASCII Internal tag together with
ASCII-valid flag bytes decodes successfully. -/
theorem read_of_valid (p : Page) (h0 : p ⟨0, by omega⟩ = 48)
    (hf : ∀ i, (hi : i < 256) → p ⟨1 + i, by omega⟩ = 48 ∨ p ⟨1 + i, by omega⟩ = 49) :
    BTreeNode.read p = .ok (BTreeNode.internal
      (fun i => p ⟨1 + i.val, by omega⟩ == 49)
      (fun i => p ⟨1792 + i.val, by omega⟩)
      (fun i =>
        { key :=
            ((p ⟨i.val * 8 + 2048, by omega⟩ : Fin 256).val <<< 24) |||
              ((p ⟨i.val * 8 + 2049, by omega⟩ : Fin 256).val <<< 16) |||
              ((p ⟨i.val * 8 + 2050, by omega⟩ : Fin 256).val <<< 8) |||
              (p ⟨i.val * 8 + 2051, by omega⟩ : Fin 256).val
          page_id :=
            ((p ⟨i.val * 8 + 2052, by omega⟩ : Fin 256).val <<< 24) |||
              ((p ⟨i.val * 8 + 2053, by omega⟩ : Fin 256).val <<< 16) |||
              ((p ⟨i.val * 8 + 2054, by omega⟩ : Fin 256).val <<< 8) |||
              (p ⟨i.val * 8 + 2055, by omega⟩ : Fin 256).val })) := by
  unfold BTreeNode.read
  rw [if_pos h0, dif_pos hf]

set_option maxRecDepth 8192 in
/-- Decoding the all-`b'0'` page succeeds and yields `nodeAscii0`. -/
theorem read_pageAscii0_eq : BTreeNode.read pageAscii0 = ReadResult.ok nodeAscii0 := by
  unfold BTreeNode.read
  simp only [pageAscii0]
  rw [if_pos (by decide)]
  rw [dif_pos (fun i hi => Or.inl trivial)]
  unfold nodeAscii0
  congr 1

/-! ## Claims C1–C5: the node codec -/

/-- C1 (roundtrip law): the claim `decode(encode(node)) == node` fails on the
source for every Internal node: the spec-modelled encoder writes the kind tag
`0x00` documented in §4.2, while the source's `BTreeNode::read` accepts only
the ASCII tags `b'0'`/`b'1'` and `panic!`s with "Invalid enum flag" on a
`0x00` tag, so decoding an encoded node always panics instead of returning
the node. (There is also no encoder in the source at all, and the `Leaf`
decode arm is an empty stub.) -/
theorem decode_of_spec_encode_panics :
    ∀ (fc : Fin 256 → Bool) (ptr : Fin 256 → Fin 256) (cells : Fin 256 → KeyCell),
      BTreeNode.read (writeInternal fc ptr cells) = ReadResult.panicInvalidEnumFlag := by
  intro fc ptr cells
  have h0 : writeInternal fc ptr cells ⟨0, by omega⟩ = 0 := by
    unfold writeInternal
    simp
  unfold BTreeNode.read
  rw [h0, if_neg (by decide), if_neg (by decide)]

/-- C2 (counterexample): decoding the page whose kind tag byte is `0x02`
does not produce a `CorruptPage` error value — no such error exists in the
source — it takes the `panic!("Invalid enum flag")` arm. -/
theorem read_tag2_panics :
    (pageTag2 ⟨0, by omega⟩ : Fin 256).val = 2 ∧
      BTreeNode.read pageTag2 = ReadResult.panicInvalidEnumFlag :=
  ⟨rfl, rfl⟩

/-- C2 (amended): decoding panics exactly when the kind tag byte is neither
`b'0'` (`0x30`) nor `b'1'` (`0x31`), or the tag is `b'0'` and some of the 256
free-slot flag bytes is neither `b'0'` nor `b'1'`; there is no `CorruptPage`
error value (and a `b'1'` tag hits the unimplemented `Leaf` arm, which
neither succeeds nor panics). -/
theorem read_panic_characterization :
    ∀ p : Page,
      (BTreeNode.read p).isPanicking = true ↔
        (p ⟨0, by omega⟩ ≠ 48 ∧ p ⟨0, by omega⟩ ≠ 49) ∨
          (p ⟨0, by omega⟩ = 48 ∧
            ∃ i : Fin 256, p ⟨1 + i.val, by omega⟩ ≠ 48 ∧ p ⟨1 + i.val, by omega⟩ ≠ 49) := by
  intro p
  unfold BTreeNode.read
  by_cases h0 : p ⟨0, by omega⟩ = 48
  · rw [if_pos h0]
    by_cases hf : ∀ i, (hi : i < 256) → p ⟨1 + i, by omega⟩ = 48 ∨ p ⟨1 + i, by omega⟩ = 49
    · rw [dif_pos hf]
      simp only [ReadResult.isPanicking]
      constructor
      · intro hfalse
        cases hfalse
      · rintro (⟨ha, _⟩ | ⟨_, i, hi48, hi49⟩)
        · exact absurd h0 ha
        · rcases hf i.val i.isLt with h | h
          · exact absurd h hi48
          · exact absurd h hi49
    · rw [dif_neg hf]
      simp only [ReadResult.isPanicking]
      constructor
      · intro _
        right
        refine ⟨h0, ?_⟩
        push_neg at hf
        obtain ⟨i, hi, h48, h49⟩ := hf
        exact ⟨⟨i, hi⟩, h48, h49⟩
      · intro _
        trivial
  · rw [if_neg h0]
    by_cases h1 : p ⟨0, by omega⟩ = 49
    · rw [if_pos h1]
      simp only [ReadResult.isPanicking]
      constructor
      · intro hfalse
        cases hfalse
      · rintro (⟨_, hb⟩ | ⟨ha, _⟩)
        · exact absurd h1 hb
        · exact absurd ha h0
    · rw [if_neg h1]
      simp only [ReadResult.isPanicking]
      exact ⟨fun _ => Or.inl ⟨h0, h1⟩, fun _ => trivial⟩

/-- C3 (counterexample): the all-`b'0'` page decodes successfully, and its
physical slot 0 is free, yet its flag byte at offset 1 is `0x30`, not the
`0x00` the claim says denotes a free slot — `0x00` flag bytes in fact make
the decoder panic. -/
theorem read_free_slot_flag_byte_not_zero :
    BTreeNode.read pageAscii0 = ReadResult.ok nodeAscii0 ∧
      nodeAscii0.internalFreecells = some (fun _ => false) ∧
      (pageAscii0 ⟨1, by omega⟩ : Fin 256).val ≠ 0 :=
  ⟨read_pageAscii0_eq, rfl, by decide⟩

/-- C3 (amended): every successful decode is an Internal node (the `Leaf`
arm is an unimplemented stub); its free-slot flags are read one byte per slot
from offset 1 with `0x30` (`b'0'`) = free and `0x31` (`b'1'`) = occupied, and
its slot-directory bytes are read one byte per logical rank from offset
1792. -/
theorem read_layout_ascii :
    ∀ (p : Page) (node : BTreeNode), BTreeNode.read p = .ok node →
      ∃ fc ptr cells, node = BTreeNode.internal fc ptr cells ∧
        ∀ i : Fin 256,
          (fc i = false ↔ p ⟨1 + i.val, by omega⟩ = 48) ∧
            (fc i = true ↔ p ⟨1 + i.val, by omega⟩ = 49) ∧
            ptr i = p ⟨1792 + i.val, by omega⟩ := by
  intro p node h
  obtain ⟨h0, hf, hnode⟩ := read_ok_inv p node h
  refine ⟨_, _, _, hnode, ?_⟩
  intro i
  rcases hf i.val i.isLt with h48 | h49
  · rw [h48]
    refine ⟨⟨fun _ => rfl, fun _ => by decide⟩, ⟨fun hc => ?_, fun hc => ?_⟩, rfl⟩
    · exact absurd hc (by decide)
    · exact absurd hc (by decide)
  · rw [h49]
    refine ⟨⟨fun hc => ?_, fun hc => ?_⟩, ⟨fun _ => rfl, fun _ => by decide⟩, rfl⟩
    · exact absurd hc (by decide)
    · exact absurd hc (by decide)

/-- C3 (witness): the amended layout statement at the all-`b'0'` page. -/
theorem read_layout_ascii_witness :
    ∃ fc ptr cells, nodeAscii0 = BTreeNode.internal fc ptr cells ∧
      ∀ i : Fin 256,
        (fc i = false ↔ pageAscii0 ⟨1 + i.val, by omega⟩ = 48) ∧
          (fc i = true ↔ pageAscii0 ⟨1 + i.val, by omega⟩ = 49) ∧
          ptr i = pageAscii0 ⟨1792 + i.val, by omega⟩ :=
  read_layout_ascii pageAscii0 nodeAscii0 read_pageAscii0_eq

/-- C4: the `KeyCell` of physical slot `i` of a successfully decoded
Internal page is read from the 8 bytes at offset `2048 + 8 * i`: the first 4
bytes as a big-endian `u32` key, the next 4 as a big-endian `u32` child page
id. -/
theorem keycell_bigendian :
    ∀ (p : Page) (fc : Fin 256 → Bool) (ptr : Fin 256 → Fin 256) (cells : Fin 256 → KeyCell),
      BTreeNode.read p = .ok (.internal fc ptr cells) →
      ∀ i : Fin 256,
        (cells i).key =
          (p ⟨i.val * 8 + 2048, by omega⟩ : Fin 256).val * 2 ^ 24 +
            (p ⟨i.val * 8 + 2049, by omega⟩ : Fin 256).val * 2 ^ 16 +
            (p ⟨i.val * 8 + 2050, by omega⟩ : Fin 256).val * 2 ^ 8 +
            (p ⟨i.val * 8 + 2051, by omega⟩ : Fin 256).val ∧
        (cells i).page_id =
          (p ⟨i.val * 8 + 2052, by omega⟩ : Fin 256).val * 2 ^ 24 +
            (p ⟨i.val * 8 + 2053, by omega⟩ : Fin 256).val * 2 ^ 16 +
            (p ⟨i.val * 8 + 2054, by omega⟩ : Fin 256).val * 2 ^ 8 +
            (p ⟨i.val * 8 + 2055, by omega⟩ : Fin 256).val := by
  intro p fc ptr cells h i
  obtain ⟨h0, hf, hnode⟩ := read_ok_inv p _ h
  injection hnode with hfc hptr hcells
  rw [hcells]
  constructor
  · exact be32_pack _ _ _ _ (Fin.isLt _) (Fin.isLt _) (Fin.isLt _)
  · exact be32_pack _ _ _ _ (Fin.isLt _) (Fin.isLt _) (Fin.isLt _)

set_option maxRecDepth 8192 in
/-- C4 (witness): slot 0 of the decoded all-`b'0'` page: its cell fields are
the big-endian reading of four `0x30` bytes. -/
theorem keycell_bigendian_witness :
    (KeyCell.mk 808464432 808464432).key = 48 * 2 ^ 24 + 48 * 2 ^ 16 + 48 * 2 ^ 8 + 48 ∧
      (KeyCell.mk 808464432 808464432).page_id = 48 * 2 ^ 24 + 48 * 2 ^ 16 + 48 * 2 ^ 8 + 48 :=
  keycell_bigendian pageAscii0 (fun _ => false) (fun _ => 48)
    (fun _ => KeyCell.mk 808464432 808464432) read_pageAscii0_eq 0

set_option maxRecDepth 16384 in
/-- C5 (counterexample): the all-zero page is byte-level well-formed under
the layout documented in the spec (kind tag `0x00`, every flag byte `0x00`),
yet the source's decoder panics on it instead of decoding it or returning an
error value. -/
theorem spec_wellformed_page_panics :
    specPageWF pageZero = true ∧ (BTreeNode.read pageZero).isPanicking = true :=
  ⟨by decide, rfl⟩

/-- C5 (amended): the decoder does not panic on input that is well-formed
for the byte values it actually implements: a page with ASCII kind tag
`b'0'` and every flag byte `b'0'` or `b'1'` decodes successfully (and pages
it rejects are rejected by `panic!`, not by an error value — see the panic
characterization of claim C2). -/
theorem read_no_panic_on_ascii_wellformed :
    ∀ p : Page, p ⟨0, by omega⟩ = 48 →
      (∀ i, (hi : i < 256) → p ⟨1 + i, by omega⟩ = 48 ∨ p ⟨1 + i, by omega⟩ = 49) →
      (BTreeNode.read p).isPanicking = false ∧ ∃ node, BTreeNode.read p = .ok node := by
  intro p h0 hf
  rw [read_of_valid p h0 hf]
  exact ⟨rfl, _, rfl⟩

/-- C5 (witness): the all-`b'0'` page is ASCII-well-formed and decodes
without a panic. -/
theorem read_no_panic_on_ascii_wellformed_witness :
    (BTreeNode.read pageAscii0).isPanicking = false ∧
      ∃ node, BTreeNode.read pageAscii0 = .ok node :=
  read_no_panic_on_ascii_wellformed pageAscii0 rfl (fun i hi => Or.inl rfl)

/-! ## Helper lemmas for the storage manager -/

/-- The zipped type comparison of `Schema::type_check` decides list equality
once the lengths agree. -/
theorem zip_all_beq_iff :
    ∀ (A B : List DBType), A.length = B.length →
      (((A.zip B).all fun p => p.1 == p.2) = true ↔ B = A) := by
  intro A
  induction A with
  | nil =>
    intro B h
    cases B with
    | nil => simp
    | cons b tl => simp at h
  | cons a tlA ih =>
    intro B h
    cases B with
    | nil => simp at h
    | cons b tlB =>
      simp only [List.zip_cons_cons, List.all_cons, Bool.and_eq_true, beq_iff_eq]
      rw [ih tlB (by simpa using h)]
      constructor
      · rintro ⟨h1, h2⟩
        rw [h1, h2]
      · intro hE
        injection hE with h1 h2
        exact ⟨h1.symm, h2⟩

/-- `Schema::type_check` succeeds exactly when the value types equal the
schema's column types, position by position. -/
theorem type_check_some_iff (s : Schema) (tys : List DBType) :
    s.type_check tys = some () ↔ tys = s.schema.map (fun p => p.2) := by
  unfold Schema.type_check
  split_ifs with h1 h2
  · exact iff_of_true rfl ((zip_all_beq_iff _ _ (by simp [h1])).mp h2)
  · refine iff_of_false (by simp) (fun he => h2 ?_)
    exact (zip_all_beq_iff _ _ (by simp [h1])).mpr he
  · refine iff_of_false (by simp) (fun he => h1 ?_)
    rw [he]
    simp

/-- `find?` on the updated table list of `pushRow`, at the updated name. -/
theorem find?_pushRow_self (l : List (String × Table)) (name : String) (v : Row) :
    (l.map (fun p =>
        if p.1 == name then (p.1, { p.2 with rows := p.2.rows ++ [v] }) else p)).find?
        (fun p => p.1 == name)
      = (l.find? (fun p => p.1 == name)).map
          (fun p => (p.1, { p.2 with rows := p.2.rows ++ [v] })) := by
  induction l with
  | nil => rfl
  | cons hd tl ih =>
    simp only [List.find?_map, beq_iff_eq] at ih
    by_cases h : hd.1 = name
    · simp [List.find?_cons, h]
    · simp [List.find?_cons, h, ih]

/-- `find?` on the updated table list of `pushRow`, at any other name. -/
theorem find?_pushRow_other (l : List (String × Table)) (name other : String) (v : Row)
    (hne : other ≠ name) :
    (l.map (fun p =>
        if p.1 == name then (p.1, { p.2 with rows := p.2.rows ++ [v] }) else p)).find?
        (fun p => p.1 == other)
      = l.find? (fun p => p.1 == other) := by
  induction l with
  | nil => rfl
  | cons hd tl ih =>
    simp only [List.find?_map, beq_iff_eq] at ih
    by_cases h : hd.1 = name
    · have hno : (name == other) = false := by
        simp only [beq_eq_false_iff_ne]
        exact fun he => hne he.symm
      simp [List.find?_cons, h, hno, ih]
    · by_cases h2 : hd.1 = other
      · simp [List.find?_cons, h, h2, hne]
      · simp [List.find?_cons, h, h2, ih]

/-- A column missing from the schema makes `get_column_indices` fail. -/
theorem gci_eq_none_of_missing (s : Schema) (cols : List String) (c : String)
    (hc : c ∈ cols) (hmiss : s.colIdx c = none) : s.get_column_indices cols = none := by
  induction cols with
  | nil => cases hc
  | cons hd tl ih =>
    unfold Schema.get_column_indices
    rcases List.mem_cons.mp hc with rfl | hc2
    · rw [hmiss]
    · cases h : s.colIdx hd
      · rfl
      · rw [ih hc2]
        rfl

/-- `colIdx` fails exactly when no schema column has the requested name. -/
theorem colIdx_none_iff (s : Schema) (c : String) :
    s.colIdx c = none ↔ ∀ p ∈ s.schema, p.1 ≠ c := by
  unfold Schema.colIdx
  rw [List.findIdx?_eq_none_iff]
  simp only [beq_eq_false_iff_ne]

/-- When every requested column is present, `get_column_indices` returns
exactly the schema positions of the requested columns, in request order. -/
theorem gci_some_of_all_present (s : Schema) :
    ∀ cols : List String, (∀ c ∈ cols, s.colIdx c ≠ none) →
      ∃ indices, s.get_column_indices cols = some indices ∧
        List.Forall₂ (fun c i => s.colIdx c = some i) cols indices := by
  intro cols
  induction cols with
  | nil => exact fun _ => ⟨[], rfl, List.Forall₂.nil⟩
  | cons hd tl ih =>
    intro hall
    obtain ⟨i, hi⟩ : ∃ i, s.colIdx hd = some i := by
      cases h : s.colIdx hd
      · exact absurd h (hall hd (by simp))
      · exact ⟨_, rfl⟩
    obtain ⟨indices, hind, hfa⟩ := ih (fun c hc => hall c (by simp [hc]))
    refine ⟨i :: indices, ?_, List.Forall₂.cons hi hfa⟩
    unfold Schema.get_column_indices
    rw [hi, hind]
    rfl

/-! ## Claims C8–C10: the storage manager -/

/-- C8: `insert_into` returns `TableNotFound` when the table is absent and
`TypeError` when the value types differ (in length or position-wise) from the
schema's column types, leaving the state unchanged in both cases; otherwise
it appends the row at the end of the named table's rows and touches no other
table. -/
theorem insert_into_spec :
    ∀ (sm : StorageManager) (table : String) (values : List DBValue),
      (sm.find table = none →
        sm.insert_into table values = (sm, .error .tableNotFound)) ∧
      (∀ t, sm.find table = some t →
        values.map DBValue.val_to_type ≠ t.schema.schema.map (fun p => p.2) →
        sm.insert_into table values = (sm, .error .typeError)) ∧
      (∀ t, sm.find table = some t →
        values.map DBValue.val_to_type = t.schema.schema.map (fun p => p.2) →
        sm.insert_into table values = (sm.pushRow table values, .ok ()) ∧
          (sm.pushRow table values).find table = some { t with rows := t.rows ++ [values] } ∧
          ∀ other, other ≠ table → (sm.pushRow table values).find other = sm.find other) := by
  intro sm table values
  refine ⟨?_, ?_, ?_⟩
  · intro h
    simp [StorageManager.insert_into, h]
  · intro t ht hne
    have htc : t.schema.type_check (values.map DBValue.val_to_type) = none := by
      cases htc : t.schema.type_check (values.map DBValue.val_to_type) with
      | none => rfl
      | some u =>
        cases u
        exact absurd ((type_check_some_iff _ _).mp htc) hne
    simp [StorageManager.insert_into, ht, htc]
  · intro t ht heq
    have htc : t.schema.type_check (values.map DBValue.val_to_type) = some () :=
      (type_check_some_iff _ _).mpr heq
    refine ⟨?_, ?_, ?_⟩
    · simp [StorageManager.insert_into, ht, htc]
    · unfold StorageManager.find StorageManager.pushRow
      rw [find?_pushRow_self]
      unfold StorageManager.find at ht
      obtain ⟨pr, hpr, hpr2⟩ := Option.map_eq_some'.mp ht
      rw [hpr]
      simp [hpr2]
    · intro other hne
      unfold StorageManager.find StorageManager.pushRow
      rw [find?_pushRow_other sm.tables table other values hne]

/-- C8 (witness): the three branches at concrete states: a missing table, a
type mismatch, and a successful append. -/
theorem insert_into_spec_witness :
    ((StorageManager.mk []).insert_into "t" []
        = (StorageManager.mk [], .error .tableNotFound)) ∧
      ((StorageManager.mk
            [("t", Table.mk (Schema.mk [("a", DBType.integer)]) [])]).insert_into "t"
          [DBValue.text "x"]
        = (StorageManager.mk [("t", Table.mk (Schema.mk [("a", DBType.integer)]) [])],
            .error .typeError)) ∧
      ((StorageManager.mk
            [("t", Table.mk (Schema.mk [("a", DBType.integer)]) [])]).insert_into "t"
          [DBValue.integer 5]
        = ((StorageManager.mk
              [("t", Table.mk (Schema.mk [("a", DBType.integer)]) [])]).pushRow "t"
            [DBValue.integer 5], .ok ())) :=
  ⟨(insert_into_spec (StorageManager.mk []) "t" []).1 rfl,
    (insert_into_spec _ "t" [DBValue.text "x"]).2.1
      (Table.mk (Schema.mk [("a", DBType.integer)]) []) (by decide) (by decide),
    ((insert_into_spec _ "t" [DBValue.integer 5]).2.2
      (Table.mk (Schema.mk [("a", DBType.integer)]) []) (by decide) rfl).1⟩

/-- C9: `query` on a `Select` returns `TableNotFound` for a missing table,
`SchemaMismatch` when some requested column is absent from the schema, and
otherwise one output row per stored row in insertion order, each row being
the requested columns' values at their schema positions in request order;
any non-`Select` statement yields an empty row list. -/
theorem query_spec :
    ∀ (sm : StorageManager) (columns : List String) (table : String) (cond : Option Condition),
      (sm.find table = none →
        sm.query (.select columns table cond) = .error .tableNotFound) ∧
      (∀ t, sm.find table = some t →
        (∃ c ∈ columns, ∀ p ∈ t.schema.schema, p.1 ≠ c) →
        sm.query (.select columns table cond) = .error .schemaMismatch) ∧
      (∀ t, sm.find table = some t →
        (∀ c ∈ columns, ∃ p ∈ t.schema.schema, p.1 = c) →
        ∃ indices, t.schema.get_column_indices columns = some indices ∧
          List.Forall₂ (fun c i => t.schema.colIdx c = some i) columns indices ∧
          sm.query (.select columns table cond) =
            .ok (t.rows.map (fun row => indices.map (fun i => row.getD i (DBValue.integer 0))))) ∧
      (∀ q : Statement, q.isSelect = false → sm.query q = .ok []) := by
  intro sm columns table cond
  refine ⟨?_, ?_, ?_, ?_⟩
  · intro h
    simp [StorageManager.query, h]
  · rintro t ht ⟨c, hc, hmiss⟩
    simp [StorageManager.query, ht,
      gci_eq_none_of_missing t.schema columns c hc ((colIdx_none_iff _ _).mpr hmiss)]
  · intro t ht hall
    have hnn : ∀ c ∈ columns, t.schema.colIdx c ≠ none := by
      intro c hc hnone
      obtain ⟨p, hp, hpc⟩ := hall c hc
      exact absurd hpc ((colIdx_none_iff _ _).mp hnone p hp)
    obtain ⟨indices, hind, hfa⟩ := gci_some_of_all_present t.schema columns hnn
    refine ⟨indices, hind, hfa, ?_⟩
    simp [StorageManager.query, ht, hind]
  · intro q hq
    cases q with
    | select c t co => simp [Statement.isSelect] at hq
    | createTable t c => rfl
    | insertInto t v => rfl

/-- C9 (witness): the four branches at concrete states. -/
theorem query_spec_witness :
    ((StorageManager.mk []).query (.select ["a"] "t" none) = .error .tableNotFound) ∧
      ((StorageManager.mk
          [("t", Table.mk (Schema.mk [("a", DBType.integer)]) [])]).query
          (.select ["zz"] "t" none) = .error .schemaMismatch) ∧
      (∃ indices,
        (Schema.mk [("a", DBType.integer), ("b", DBType.text)]).get_column_indices ["b"]
            = some indices ∧
          List.Forall₂
            (fun c i => (Schema.mk [("a", DBType.integer), ("b", DBType.text)]).colIdx c = some i)
            ["b"] indices ∧
          (StorageManager.mk
              [("t", Table.mk (Schema.mk [("a", DBType.integer), ("b", DBType.text)])
                  [[DBValue.integer 1, DBValue.text "x"]])]).query (.select ["b"] "t" none)
            = .ok ([[DBValue.integer 1, DBValue.text "x"]].map
                (fun row => indices.map (fun i => row.getD i (DBValue.integer 0))))) ∧
      ((StorageManager.mk []).query (.createTable "t" []) = .ok []) :=
  ⟨(query_spec (StorageManager.mk []) ["a"] "t" none).1 rfl,
    (query_spec _ ["zz"] "t" none).2.1
      (Table.mk (Schema.mk [("a", DBType.integer)]) []) (by decide) (by decide),
    (query_spec _ ["b"] "t" none).2.2.1
      (Table.mk (Schema.mk [("a", DBType.integer), ("b", DBType.text)])
        [[DBValue.integer 1, DBValue.text "x"]]) (by decide) (by decide),
    (query_spec (StorageManager.mk []) [] "t" none).2.2.2 (.createTable "t" []) rfl⟩

/-- C10: `create_table` returns `TableNameAlreadyInUse` and leaves the
registry unchanged when the name is taken; otherwise it registers a table
with the given schema and zero rows under that name, leaving every other
name's binding unchanged. -/
theorem create_table_spec :
    ∀ (sm : StorageManager) (name : String) (schema : Schema),
      (sm.containsName name = true →
        sm.create_table name schema = (sm, .error .tableNameAlreadyInUse)) ∧
      (sm.containsName name = false →
        sm.create_table name schema =
          ({ tables := sm.tables ++ [(name, Table.new schema)] }, .ok ()) ∧
          StorageManager.find { tables := sm.tables ++ [(name, Table.new schema)] } name
            = some { schema := schema, rows := [] } ∧
          ∀ other, other ≠ name →
            StorageManager.find { tables := sm.tables ++ [(name, Table.new schema)] } other
              = sm.find other) := by
  intro sm name schema
  constructor
  · intro h
    simp [StorageManager.create_table, h]
  · intro h
    refine ⟨?_, ?_, ?_⟩
    · simp [StorageManager.create_table, h]
    · unfold StorageManager.find
      rw [List.find?_append]
      have hnone : sm.tables.find? (fun p => p.1 == name) = none := by
        unfold StorageManager.containsName at h
        simpa using h
      rw [hnone]
      simp [Table.new]
    · intro other hne
      unfold StorageManager.find
      rw [List.find?_append]
      have hx : List.find? (fun p => p.1 == other) [(name, Table.new schema)] = none := by
        simp only [List.find?_cons]
        have : (name == other) = false := by
          simp only [beq_eq_false_iff_ne]
          exact fun he => hne he.symm
        rw [this]
        rfl
      rw [hx]
      cases hfind : sm.tables.find? (fun p => p.1 == other) <;> simp

/-- C10 (witness): both branches at concrete states. -/
theorem create_table_spec_witness :
    ((StorageManager.mk [("t", Table.mk (Schema.mk []) [])]).create_table "t" (Schema.mk [])
        = (StorageManager.mk [("t", Table.mk (Schema.mk []) [])],
            .error .tableNameAlreadyInUse)) ∧
      ((StorageManager.mk []).create_table "u" (Schema.mk [("a", DBType.integer)])
          = ({ tables := [] ++ [("u", Table.new (Schema.mk [("a", DBType.integer)]))] },
              .ok ()) ∧
        StorageManager.find
            { tables := [] ++ [("u", Table.new (Schema.mk [("a", DBType.integer)]))] } "u"
          = some { schema := Schema.mk [("a", DBType.integer)], rows := [] }) :=
  ⟨(create_table_spec _ "t" (Schema.mk [])).1 (by decide),
    ((create_table_spec (StorageManager.mk []) "u" (Schema.mk [("a", DBType.integer)])).2
        (by decide)).1,
    ((create_table_spec (StorageManager.mk []) "u" (Schema.mk [("a", DBType.integer)])).2
        (by decide)).2.1⟩

/-! ## Helper lemmas for the modelled engine: sorted cell lists -/

/-- `insertCells` grows the list by at most one cell. -/
theorem insertCells_length_le (cells : List (Nat × Row)) (k : Nat) (v : Row) :
    (insertCells cells k v).length ≤ cells.length + 1 := by
  induction cells with
  | nil => simp [insertCells]
  | cons hd tl ih =>
    unfold insertCells
    split_ifs <;> simp_all <;> omega

/-- `insertCells` never shrinks the list. -/
theorem insertCells_length_ge (cells : List (Nat × Row)) (k : Nat) (v : Row) :
    cells.length ≤ (insertCells cells k v).length := by
  induction cells with
  | nil => simp [insertCells]
  | cons hd tl ih =>
    unfold insertCells
    split_ifs <;> simp_all <;> omega

/-- Every cell of `insertCells cells k v` is the new cell or an old one. -/
theorem insertCells_mem (cells : List (Nat × Row)) (k : Nat) (v : Row) :
    ∀ p ∈ insertCells cells k v, p = (k, v) ∨ p ∈ cells := by
  induction cells with
  | nil => simp [insertCells]
  | cons hd tl ih =>
    unfold insertCells
    split_ifs with h1 h2
    · intro p hp
      rcases List.mem_cons.mp hp with rfl | hp2
      · exact Or.inl rfl
      · exact Or.inr hp2
    · intro p hp
      rcases List.mem_cons.mp hp with rfl | hp2
      · exact Or.inl rfl
      · exact Or.inr (List.mem_cons_of_mem _ hp2)
    · intro p hp
      rcases List.mem_cons.mp hp with rfl | hp2
      · exact Or.inr (List.mem_cons_self _ _)
      · rcases ih p hp2 with h | h
        · exact Or.inl h
        · exact Or.inr (List.mem_cons_of_mem _ h)

/-- `insertCells` preserves strict key sortedness. -/
theorem insertCells_sorted (cells : List (Nat × Row)) (k : Nat) (v : Row)
    (hs : cells.Pairwise (fun p q => p.1 < q.1)) :
    (insertCells cells k v).Pairwise (fun p q => p.1 < q.1) := by
  induction cells with
  | nil => simp [insertCells]
  | cons hd tl ih =>
    rw [List.pairwise_cons] at hs
    obtain ⟨hhd, htl⟩ := hs
    unfold insertCells
    split_ifs with h1 h2
    · rw [List.pairwise_cons]
      refine ⟨?_, by rw [List.pairwise_cons]; exact ⟨hhd, htl⟩⟩
      intro p hp
      rcases List.mem_cons.mp hp with rfl | hp2
      · exact h1
      · exact lt_trans h1 (hhd p hp2)
    · rw [List.pairwise_cons]
      refine ⟨?_, htl⟩
      intro p hp
      rw [h2]
      exact hhd p hp
    · rw [List.pairwise_cons]
      refine ⟨?_, ih htl⟩
      intro p hp
      rcases insertCells_mem tl k v p hp with rfl | hp2
      · omega
      · exact hhd p hp2

/-- Looking up the key just inserted finds the new row. -/
theorem lookupCells_insert_self (cells : List (Nat × Row)) (k : Nat) (v : Row) :
    lookupCells (insertCells cells k v) k = some v := by
  induction cells with
  | nil => simp [insertCells, lookupCells]
  | cons hd tl ih =>
    unfold insertCells
    split_ifs with h1 h2
    · simp [lookupCells]
    · simp [lookupCells]
    · have hne : (hd.1 == k) = false := by
        simp only [beq_eq_false_iff_ne]
        omega
      simp only [lookupCells, List.find?_cons, hne]
      exact ih

/-- Inserting one key does not change lookups of any other key. -/
theorem lookupCells_insert_other (cells : List (Nat × Row)) (k k' : Nat) (v : Row)
    (hne : k' ≠ k) :
    lookupCells (insertCells cells k v) k' = lookupCells cells k' := by
  induction cells with
  | nil =>
    have h : (k == k') = false := by
      simp only [beq_eq_false_iff_ne]
      omega
    simp [insertCells, lookupCells, h]
  | cons hd tl ih =>
    have hk : (k == k') = false := by
      simp only [beq_eq_false_iff_ne]
      omega
    unfold insertCells
    split_ifs with h1 h2
    · simp only [lookupCells, List.find?_cons, hk]
    · simp only [lookupCells, List.find?_cons, hk]
      have : (hd.1 == k') = false := by
        simp only [beq_eq_false_iff_ne]
        omega
      rw [this]
    · simp only [lookupCells, List.find?_cons]
      cases h : (hd.1 == k')
      · exact ih
      · rfl

/-- A key absent from a cell list is not found. -/
theorem lookupCells_eq_none (cells : List (Nat × Row)) (k : Nat)
    (h : ∀ p ∈ cells, p.1 ≠ k) : lookupCells cells k = none := by
  unfold lookupCells
  rw [List.find?_eq_none.mpr]
  · rfl
  · intro p hp
    simp [h p hp]

/-- Lookup in a concatenation whose left part misses the key. -/
theorem lookupCells_append_left_none (A B : List (Nat × Row)) (k : Nat)
    (h : ∀ p ∈ A, p.1 ≠ k) : lookupCells (A ++ B) k = lookupCells B k := by
  unfold lookupCells
  rw [List.find?_append]
  have : A.find? (fun p => p.1 == k) = none := by
    rw [List.find?_eq_none]
    intro p hp
    simp [h p hp]
  rw [this]
  rfl

/-- Lookup in a concatenation whose right part misses the key. -/
theorem lookupCells_append_right_none (A B : List (Nat × Row)) (k : Nat)
    (h : ∀ p ∈ B, p.1 ≠ k) : lookupCells (A ++ B) k = lookupCells A k := by
  unfold lookupCells
  rw [List.find?_append]
  have hB : B.find? (fun p => p.1 == k) = none := by
    rw [List.find?_eq_none]
    intro p hp
    simp [h p hp]
  rw [hB]
  cases A.find? (fun p => p.1 == k) <;> rfl

/-- Inserting a key that is greater than all keys of a prefix inserts into
the suffix. -/
theorem insertCells_append_left (A B : List (Nat × Row)) (k : Nat) (v : Row)
    (h : ∀ p ∈ A, p.1 < k) : insertCells (A ++ B) k v = A ++ insertCells B k v := by
  induction A with
  | nil => rfl
  | cons hd tl ih =>
    obtain ⟨k0, v0⟩ := hd
    have hhd : k0 < k := by simpa using h (k0, v0) (List.mem_cons_self _ _)
    simp only [List.cons_append]
    conv_lhs => simp only [insertCells]
    split_ifs with h1 h2
    · omega
    · omega
    · congr 1
      exact ih (fun p hp => h p (List.mem_cons_of_mem _ hp))

/-- Inserting a key that is smaller than all keys of a suffix inserts into
the prefix. -/
theorem insertCells_append_right (A B : List (Nat × Row)) (k : Nat) (v : Row)
    (h : ∀ p ∈ B, k < p.1) : insertCells (A ++ B) k v = insertCells A k v ++ B := by
  induction A with
  | nil =>
    simp only [List.nil_append]
    cases B with
    | nil => rfl
    | cons hd tl =>
      have hhd : k < hd.1 := h hd (List.mem_cons_self _ _)
      unfold insertCells
      rw [if_pos hhd]
      rfl
  | cons hd tl ih =>
    obtain ⟨k0, v0⟩ := hd
    simp only [List.cons_append]
    conv_lhs => simp only [insertCells]
    conv_rhs => simp only [insertCells]
    split_ifs with h1 h2
    · simp
    · simp
    · simp only [List.cons_append]
      congr 1

/-! ## Helper lemmas for the modelled engine: range discipline -/

/-- A lower bound below `s` is below anything `≥ s`. -/
theorem loLe_trans (lo : Option Nat) (s k : Nat) (h1 : loLe lo s) (h2 : s ≤ k) :
    loLe lo k := by
  cases lo with
  | none => trivial
  | some a => exact le_trans h1 h2

/-- A key strictly below a separator is strictly below the separator's
non-strict upper bound. -/
theorem ltHi_of_lt_leHi (k s : Nat) (hi : Option Nat) (h1 : k < s) (h2 : leHi s hi) :
    ltHi k hi := by
  cases hi with
  | none => trivial
  | some b => exact lt_of_lt_of_le h1 h2

/-- A strict upper bound is in particular a non-strict one. -/
theorem leHi_of_ltHi (s : Nat) (hi : Option Nat) (h : ltHi s hi) : leHi s hi := by
  cases hi with
  | none => trivial
  | some b => exact le_of_lt h

/-- A key below a separator inherits the separator's non-strict bound. -/
theorem leHi_of_lt_leHi (k s : Nat) (hi : Option Nat) (h1 : k < s) (h2 : leHi s hi) :
    leHi k hi :=
  leHi_of_ltHi k hi (ltHi_of_lt_leHi k s hi h1 h2)

/-- Every data key of a well-formed subtree lies in the governed range. -/
theorem entries_inB : ∀ t : MTree, ∀ lo hi, MTree.wf lo hi t → ∀ p ∈ t.entries, inB lo hi p.1 :=
  mtreeRecP
    (fun t => ∀ lo hi, MTree.wf lo hi t → ∀ p ∈ t.entries, inB lo hi p.1)
    (fun cur rest => ∀ lo hi, MTree.wfFrom lo hi cur rest →
      ∀ p ∈ MTree.entriesFrom cur rest, inB lo hi p.1)
    (by
      intro cells lo hi hw p hp
      simp only [MTree.wf] at hw
      simp only [MTree.entries] at hp
      exact hw.2.2 p hp)
    (by
      intro first rest ihq lo hi hw p hp
      simp only [MTree.wf] at hw
      simp only [MTree.entries] at hp
      exact ihq lo hi hw.2 p hp)
    (by
      intro cur ihp lo hi hw p hp
      simp only [MTree.wfFrom] at hw
      simp only [MTree.entriesFrom] at hp
      exact ihp lo hi hw p hp)
    (by
      intro cur s c tl ihp ihq lo hi hw p hp
      simp only [MTree.wfFrom] at hw
      obtain ⟨hls, hsh, hwc, hwtl⟩ := hw
      simp only [MTree.entriesFrom] at hp
      rcases List.mem_append.mp hp with hpl | hpr
      · obtain ⟨h1, h2⟩ := ihp lo (some s) hwc p hpl
        exact ⟨h1, ltHi_of_lt_leHi p.1 s hi h2 hsh⟩
      · obtain ⟨h1, h2⟩ := ihq (some s) hi hwtl p hpr
        exact ⟨loLe_trans lo s p.1 hls h1, h2⟩)

/-- `entries_inB` for a leftmost child together with its sibling cells. -/
theorem entriesFrom_inB :
    ∀ (rest : List (Nat × MTree)) (cur : MTree) (lo hi : Option Nat),
      MTree.wfFrom lo hi cur rest → ∀ p ∈ MTree.entriesFrom cur rest, inB lo hi p.1 := by
  intro rest
  induction rest with
  | nil =>
    intro cur lo hi hw p hp
    simp only [MTree.wfFrom] at hw
    simp only [MTree.entriesFrom] at hp
    exact entries_inB cur lo hi hw p hp
  | cons hd tl ih =>
    obtain ⟨s, c⟩ := hd
    intro cur lo hi hw p hp
    simp only [MTree.wfFrom] at hw
    obtain ⟨hls, hsh, hwc, hwtl⟩ := hw
    simp only [MTree.entriesFrom] at hp
    rcases List.mem_append.mp hp with hpl | hpr
    · obtain ⟨h1, h2⟩ := entries_inB cur lo (some s) hwc p hpl
      exact ⟨h1, ltHi_of_lt_leHi p.1 s hi h2 hsh⟩
    · obtain ⟨h1, h2⟩ := ih c (some s) hi hwtl p hpr
      exact ⟨loLe_trans lo s p.1 hls h1, h2⟩

/-- Lookup in a well-formed subtree is exact-match search in its in-order
cell sequence. -/
theorem lookup_entries :
    ∀ t : MTree, ∀ lo hi, MTree.wf lo hi t → ∀ k, t.lookup k = lookupCells t.entries k :=
  mtreeRecP
    (fun t => ∀ lo hi, MTree.wf lo hi t → ∀ k, t.lookup k = lookupCells t.entries k)
    (fun cur rest => ∀ lo hi, MTree.wfFrom lo hi cur rest →
      ∀ k, MTree.lookupFrom cur rest k = lookupCells (MTree.entriesFrom cur rest) k)
    (by
      intro cells lo hi _ k
      simp only [MTree.lookup, MTree.entries])
    (by
      intro first rest ihq lo hi hw k
      simp only [MTree.wf] at hw
      simp only [MTree.lookup, MTree.entries]
      exact ihq lo hi hw.2 k)
    (by
      intro cur ihp lo hi hw k
      simp only [MTree.wfFrom] at hw
      simp only [MTree.lookupFrom, MTree.entriesFrom]
      exact ihp lo hi hw k)
    (by
      intro cur s c tl ihp ihq lo hi hw k
      simp only [MTree.wfFrom] at hw
      obtain ⟨hls, hsh, hwc, hwtl⟩ := hw
      simp only [MTree.lookupFrom, MTree.entriesFrom]
      by_cases hk : k < s
      · rw [if_pos hk, ihp lo (some s) hwc k, lookupCells_append_right_none]
        intro p hp
        have h1 : s ≤ p.1 := (entriesFrom_inB tl c (some s) hi hwtl p hp).1
        omega
      · rw [if_neg hk, ihq (some s) hi hwtl k, lookupCells_append_left_none]
        intro p hp
        have h2 : p.1 < s := (entries_inB cur lo (some s) hwc p hp).2
        omega)

/-- A separator below another separator inherits its non-strict bound. -/
theorem leHi_trans (k s : Nat) (hi : Option Nat) (h1 : k ≤ s) (h2 : leHi s hi) :
    leHi k hi := by
  cases hi with
  | none => trivial
  | some b => exact le_trans h1 h2

/-- Splitting a well-formed child list at a separator cell: the two sides
are well-formed on the two halves of the range, the separator respects the
whole range, and the in-order cell sequence splits accordingly. -/
theorem wfFrom_append_decomp :
    ∀ (L1 : List (Nat × MTree)) (cur : MTree) (lo hi : Option Nat) (s : Nat) (c : MTree)
      (L2 : List (Nat × MTree)),
      MTree.wfFrom lo hi cur (L1 ++ (s, c) :: L2) →
      MTree.wfFrom lo (some s) cur L1 ∧ loLe lo s ∧ leHi s hi ∧
        MTree.wfFrom (some s) hi c L2 ∧
        MTree.entriesFrom cur (L1 ++ (s, c) :: L2)
          = MTree.entriesFrom cur L1 ++ MTree.entriesFrom c L2 := by
  intro L1
  induction L1 with
  | nil =>
    intro cur lo hi s c L2 hw
    simp only [List.nil_append] at hw ⊢
    simp only [MTree.wfFrom] at hw
    obtain ⟨h1, h2, h3, h4⟩ := hw
    refine ⟨?_, h1, h2, h4, ?_⟩
    · simp only [MTree.wfFrom]
      exact h3
    · simp only [MTree.entriesFrom]
  | cons hd tl ih =>
    obtain ⟨s1, c1⟩ := hd
    intro cur lo hi s c L2 hw
    simp only [List.cons_append] at hw ⊢
    simp only [MTree.wfFrom] at hw
    obtain ⟨h1, h2, h3, h4⟩ := hw
    obtain ⟨q1, q2, q3, q4, q5⟩ := ih c1 (some s1) hi s c L2 h4
    refine ⟨?_, loLe_trans lo s1 s h1 q2, q3, q4, ?_⟩
    · simp only [MTree.wfFrom]
      exact ⟨h1, leHi_trans s1 s (some s) q2 (by simp [leHi]), h3, q1⟩
    · simp only [MTree.entriesFrom]
      rw [q5, List.append_assoc]

/-- The main preservation property of the modelled `Insert` (§4.3–§4.4):
on a well-formed subtree whose range contains the key, `insertE` never
reports `CapacityExceeded`; it returns either an updated well-formed subtree
or a well-formed split pair with an in-range promoted separator, and in
either case the in-order cell sequence is the sorted insertion into the old
sequence. -/
theorem insertE_wf :
    ∀ t : MTree, ∀ lo hi k v, MTree.wf lo hi t → inB lo hi k →
      (∃ t', t.insertE k v = .ok (.one t') ∧ MTree.wf lo hi t' ∧
        t'.entries = insertCells t.entries k v) ∨
      (∃ l s r, t.insertE k v = .ok (.split l s r) ∧ MTree.wf lo (some s) l ∧
        MTree.wf (some s) hi r ∧ loLe lo s ∧ leHi s hi ∧
        l.entries ++ r.entries = insertCells t.entries k v) :=
  mtreeRecP
    (fun t => ∀ lo hi k v, MTree.wf lo hi t → inB lo hi k →
      (∃ t', t.insertE k v = .ok (.one t') ∧ MTree.wf lo hi t' ∧
        t'.entries = insertCells t.entries k v) ∨
      (∃ l s r, t.insertE k v = .ok (.split l s r) ∧ MTree.wf lo (some s) l ∧
        MTree.wf (some s) hi r ∧ loLe lo s ∧ leHi s hi ∧
        l.entries ++ r.entries = insertCells t.entries k v))
    (fun cur rest => ∀ lo hi k v, MTree.wfFrom lo hi cur rest → inB lo hi k →
      ∃ cur' rest', MTree.insertFrom cur rest k v = .ok (cur', rest') ∧
        MTree.wfFrom lo hi cur' rest' ∧ rest'.length ≤ rest.length + 1 ∧
        MTree.entriesFrom cur' rest' = insertCells (MTree.entriesFrom cur rest) k v)
    (by
      -- leaf
      intro cells lo hi k v hw hk
      simp only [MTree.wf] at hw
      obtain ⟨hlen, hsort, hin⟩ := hw
      have hsort' := insertCells_sorted cells k v hsort
      have hin' : ∀ p ∈ insertCells cells k v, inB lo hi p.1 := by
        intro p hp
        rcases insertCells_mem cells k v p hp with rfl | hp2
        · exact hk
        · exact hin p hp2
      have hlenle := insertCells_length_le cells k v
      by_cases hle : (insertCells cells k v).length ≤ 64
      · left
        refine ⟨.leaf (insertCells cells k v), ?_, ?_, ?_⟩
        · simp only [MTree.insertE]
          rw [if_pos hle]
        · simp only [MTree.wf]
          exact ⟨hle, hsort', hin'⟩
        · simp only [MTree.entries]
      · right
        have h65 : (insertCells cells k v).length = 65 := by omega
        have hdroplen : ((insertCells cells k v).drop 32).length = 33 := by
          rw [List.length_drop, h65]
        cases hdrop : (insertCells cells k v).drop 32 with
        | nil =>
          rw [hdrop] at hdroplen
          simp at hdroplen
        | cons hd tl2 =>
          have hsplit : (insertCells cells k v).take 32 ++ hd :: tl2
              = insertCells cells k v := by
            rw [← hdrop, List.take_append_drop]
          have hsort'' : ((insertCells cells k v).take 32 ++ hd :: tl2).Pairwise
              (fun p q => p.1 < q.1) := by
            rw [hsplit]
            exact hsort'
          rw [List.pairwise_append] at hsort''
          obtain ⟨ptake, pdrop, hcross⟩ := hsort''
          have hin'' : ∀ p ∈ (insertCells cells k v).take 32 ++ hd :: tl2, inB lo hi p.1 := by
            rw [hsplit]
            exact hin'
          refine ⟨.leaf ((insertCells cells k v).take 32), hd.1, .leaf (hd :: tl2),
            ?_, ?_, ?_, ?_, ?_, ?_⟩
          · simp only [MTree.insertE, hdrop, if_neg hle, if_pos h65]
          · simp only [MTree.wf]
            refine ⟨?_, ptake, ?_⟩
            · rw [List.length_take]
              omega
            · intro p hp
              refine ⟨(hin'' p (List.mem_append_left _ hp)).1, ?_⟩
              exact hcross p hp hd (List.mem_cons_self _ _)
          · simp only [MTree.wf]
            refine ⟨?_, pdrop, ?_⟩
            · have h33 : (hd :: tl2).length = 33 := by
                rw [← hdrop]
                exact hdroplen
              simp only [List.length_cons] at h33 ⊢
              omega
            · intro p hp
              refine ⟨?_, (hin'' p (List.mem_append_right _ hp)).2⟩
              rcases List.mem_cons.mp hp with rfl | hp2
              · exact le_refl _
              · exact le_of_lt ((List.pairwise_cons.mp pdrop).1 p hp2)
          · exact (hin'' hd (List.mem_append_right _ (List.mem_cons_self _ _))).1
          · exact leHi_of_ltHi _ _
              (hin'' hd (List.mem_append_right _ (List.mem_cons_self _ _))).2
          · simp only [MTree.entries]
            exact hsplit)
    (by
      -- internal
      intro first rest ihq lo hi k v hw hk
      simp only [MTree.wf] at hw
      obtain ⟨hlen, hwf⟩ := hw
      obtain ⟨first', rest', hEq, hwf', hlen', hent⟩ := ihq lo hi k v hwf hk
      by_cases h255 : rest'.length ≤ 255
      · left
        refine ⟨.internal first' rest', ?_, ?_, ?_⟩
        · simp only [MTree.insertE, hEq, if_pos h255]
        · simp only [MTree.wf]
          exact ⟨h255, hwf'⟩
        · simp only [MTree.entries]
          exact hent
      · right
        have h256 : rest'.length = 256 := by omega
        have hdroplen : (rest'.drop 128).length = 128 := by
          rw [List.length_drop, h256]
        cases hdrop : rest'.drop 128 with
        | nil =>
          rw [hdrop] at hdroplen
          simp at hdroplen
        | cons hd tl2 =>
          obtain ⟨s, c⟩ := hd
          have hsplit : rest'.take 128 ++ (s, c) :: tl2 = rest' := by
            rw [← hdrop, List.take_append_drop]
          have hwf'' : MTree.wfFrom lo hi first' (rest'.take 128 ++ (s, c) :: tl2) := by
            rw [hsplit]
            exact hwf'
          obtain ⟨d1, d2, d3, d4, d5⟩ := wfFrom_append_decomp _ first' lo hi s c tl2 hwf''
          refine ⟨.internal first' (rest'.take 128), s, .internal c tl2, ?_, ?_, ?_, d2, d3, ?_⟩
          · simp only [MTree.insertE, hEq, if_neg h255, hdrop, if_pos h256]
          · simp only [MTree.wf]
            refine ⟨?_, d1⟩
            rw [List.length_take]
            omega
          · simp only [MTree.wf]
            refine ⟨?_, d4⟩
            have h128 : ((s, c) :: tl2).length = 128 := by
              rw [← hdrop]
              exact hdroplen
            simp only [List.length_cons] at h128
            omega
          · simp only [MTree.entries]
            rw [← d5, hsplit]
            exact hent)
    (by
      -- child list: nil
      intro cur ihp lo hi k v hw hk
      simp only [MTree.wfFrom] at hw
      rcases ihp lo hi k v hw hk with ⟨t', hEq, hwf', hent⟩ |
        ⟨l, s, r, hEq, hwl, hwr, hls, hsh, hent⟩
      · refine ⟨t', [], ?_, ?_, by simp, ?_⟩
        · simp only [MTree.insertFrom, hEq]
        · simp only [MTree.wfFrom]
          exact hwf'
        · simp only [MTree.entriesFrom]
          exact hent
      · refine ⟨l, [(s, r)], ?_, ?_, by simp, ?_⟩
        · simp only [MTree.insertFrom, hEq]
        · simp only [MTree.wfFrom]
          exact ⟨hls, hsh, hwl, hwr⟩
        · simp only [MTree.entriesFrom]
          exact hent)
    (by
      -- child list: cons
      intro cur s0 c0 tl ihp ihq lo hi k v hw hk
      simp only [MTree.wfFrom] at hw
      obtain ⟨h1, h2, h3, h4⟩ := hw
      by_cases hks : k < s0
      · rcases ihp lo (some s0) k v h3 ⟨hk.1, hks⟩ with ⟨c', hEq, hwf', hent⟩ |
          ⟨l, s, r, hEq, hwl, hwr, hls, hsh, hent⟩
        · refine ⟨c', (s0, c0) :: tl, ?_, ?_, by simp, ?_⟩
          · simp only [MTree.insertFrom, if_pos hks, hEq]
          · simp only [MTree.wfFrom]
            exact ⟨h1, h2, hwf', h4⟩
          · simp only [MTree.entriesFrom]
            rw [hent, insertCells_append_right]
            intro p hp
            have hge := (entriesFrom_inB tl c0 (some s0) hi h4 p hp).1
            have : s0 ≤ p.1 := hge
            omega
        · have hss0 : s ≤ s0 := hsh
          refine ⟨l, (s, r) :: (s0, c0) :: tl, ?_, ?_, by simp, ?_⟩
          · simp only [MTree.insertFrom, if_pos hks, hEq]
          · simp only [MTree.wfFrom]
            exact ⟨hls, leHi_trans s s0 hi hss0 h2, hwl, hss0, h2, hwr, h4⟩
          · simp only [MTree.entriesFrom]
            rw [insertCells_append_right]
            · rw [← hent, List.append_assoc]
            · intro p hp
              have hge := (entriesFrom_inB tl c0 (some s0) hi h4 p hp).1
              have : s0 ≤ p.1 := hge
              omega
      · have hs0k : s0 ≤ k := by omega
        obtain ⟨c0', tl', hEq, hwf', hlen', hent⟩ := ihq (some s0) hi k v h4 ⟨hs0k, hk.2⟩
        refine ⟨cur, (s0, c0') :: tl', ?_, ?_, ?_, ?_⟩
        · simp only [MTree.insertFrom, if_neg hks, hEq]
        · simp only [MTree.wfFrom]
          exact ⟨h1, h2, h3, hwf'⟩
        · simp only [List.length_cons]
          omega
        · simp only [MTree.entriesFrom]
          rw [hent, insertCells_append_left]
          intro p hp
          have hlt : p.1 < s0 := (entries_inB cur lo (some s0) h3 p hp).2
          omega)

/-- A whole-tree insert on a well-formed tree never errors, preserves
well-formedness (growing a new root on a root split), and performs a sorted
insertion on the in-order cell sequence. -/
theorem insertTopE_wf (t : MTree) (k : Nat) (v : Row) (hw : MTree.wf none none t) :
    ∃ t', t.insertTopE k v = .ok t' ∧ MTree.wf none none t' ∧
      t'.entries = insertCells t.entries k v := by
  rcases insertE_wf t none none k v hw ⟨trivial, trivial⟩ with ⟨t', hEq, hwf', hent⟩ |
    ⟨l, s, r, hEq, hwl, hwr, _, _, hent⟩
  · refine ⟨t', ?_, hwf', hent⟩
    simp only [MTree.insertTopE, hEq]
  · refine ⟨.internal l [(s, r)], ?_, ?_, ?_⟩
    · simp only [MTree.insertTopE, hEq]
    · simp only [MTree.wf, MTree.wfFrom]
      exact ⟨by simp, trivial, trivial, hwl, hwr⟩
    · simp only [MTree.entries, MTree.entriesFrom]
      exact hent

/-- A sequence of inserts from a well-formed tree never errors and leaves
the in-order cell sequence equal to the fold of sorted insertions. -/
theorem insertAll_wf :
    ∀ (ops : List (Nat × Row)) (t : MTree), MTree.wf none none t →
      ∃ t', t.insertAll ops = .ok t' ∧ MTree.wf none none t' ∧
        t'.entries = ops.foldl (fun E p => insertCells E p.1 p.2) t.entries := by
  intro ops
  induction ops with
  | nil =>
    intro t hw
    exact ⟨t, rfl, hw, rfl⟩
  | cons hd tl ih =>
    obtain ⟨k, v⟩ := hd
    intro t hw
    obtain ⟨t1, hEq1, hw1, hent1⟩ := insertTopE_wf t k v hw
    obtain ⟨t2, hEq2, hw2, hent2⟩ := ih t1 hw1
    refine ⟨t2, ?_, hw2, ?_⟩
    · simp only [MTree.insertAll, hEq1]
      exact hEq2
    · rw [hent2, hent1]
      simp only [List.foldl_cons]

/-- Well-formedness implies the fanout bounds alone. -/
theorem wf_capOK : ∀ t : MTree, ∀ lo hi, MTree.wf lo hi t → MTree.capOK t :=
  mtreeRecP
    (fun t => ∀ lo hi, MTree.wf lo hi t → MTree.capOK t)
    (fun cur rest => ∀ lo hi, MTree.wfFrom lo hi cur rest →
      MTree.capOK cur ∧ MTree.capOKAll rest)
    (by
      intro cells lo hi hw
      simp only [MTree.wf] at hw
      simp only [MTree.capOK]
      exact hw.1)
    (by
      intro first rest ihq lo hi hw
      simp only [MTree.wf] at hw
      simp only [MTree.capOK]
      exact ⟨hw.1, (ihq lo hi hw.2).1, (ihq lo hi hw.2).2⟩)
    (by
      intro cur ihp lo hi hw
      simp only [MTree.wfFrom] at hw
      simp only [MTree.capOKAll]
      exact ⟨ihp lo hi hw, trivial⟩)
    (by
      intro cur s c tl ihp ihq lo hi hw
      simp only [MTree.wfFrom] at hw
      obtain ⟨_, _, hwc, hwtl⟩ := hw
      simp only [MTree.capOKAll]
      exact ⟨ihp lo (some s) hwc, (ihq (some s) hi hwtl).1, (ihq (some s) hi hwtl).2⟩)

/-- The empty root leaf is well-formed. -/
theorem wf_emptyTree : MTree.wf none none emptyTree := by
  simp only [emptyTree, MTree.wf]
  exact ⟨by simp, List.Pairwise.nil, by simp⟩

/-- Folding inserts whose keys all differ from `k` does not change the
lookup of `k`. -/
theorem lookupCells_foldl_other :
    ∀ (ops : List (Nat × Row)) (E : List (Nat × Row)) (k : Nat),
      (∀ p ∈ ops, p.1 ≠ k) →
      lookupCells (ops.foldl (fun E p => insertCells E p.1 p.2) E) k = lookupCells E k := by
  intro ops
  induction ops with
  | nil => intro E k _; rfl
  | cons hd tl ih =>
    intro E k hne
    simp only [List.foldl_cons]
    rw [ih _ k (fun p hp => hne p (List.mem_cons_of_mem _ hp))]
    exact lookupCells_insert_other E hd.1 k hd.2
      (fun he => hne hd (List.mem_cons_self _ _) he.symm)

/-! ## Claims C6–C7: the modelled B-tree engine -/

/-- C7 (spec-modelled): after any sequence of inserts starting from the
empty tree, every internal node holds at most 256 children (255 separator
cells plus the leftmost child) and every leaf at most 64 data cells, and no
insert ever reports `CapacityExceeded`: the whole sequence returns `ok`. -/
theorem fanout_bound_and_no_capacity_error :
    ∀ ops : List (Nat × Row), ∃ t, emptyTree.insertAll ops = .ok t ∧ MTree.capOK t := by
  intro ops
  obtain ⟨t, hEq, hw, _⟩ := insertAll_wf ops emptyTree wf_emptyTree
  exact ⟨t, hEq, wf_capOK t none none hw⟩

/-- C6 (spec-modelled): inserting `(k, r)` anywhere in a sequence of inserts
from the empty tree makes `lookup k` return `some r`, as long as no later
insert uses the key `k` again (earlier inserts of `k` are overwritten —
last-writer-wins); looking up a key never inserted returns `none`. -/
theorem lookup_insert_consistency :
    (∀ (pre post : List (Nat × Row)) (k : Nat) (r : Row),
      (∀ p ∈ post, p.1 ≠ k) →
      ∃ t, emptyTree.insertAll (pre ++ (k, r) :: post) = .ok t ∧ t.lookup k = some r) ∧
    (∀ (ops : List (Nat × Row)) (k : Nat),
      (∀ p ∈ ops, p.1 ≠ k) →
      ∃ t, emptyTree.insertAll ops = .ok t ∧ t.lookup k = none) := by
  constructor
  · intro pre post k r hpost
    obtain ⟨t, hEq, hw, hent⟩ := insertAll_wf (pre ++ (k, r) :: post) emptyTree wf_emptyTree
    refine ⟨t, hEq, ?_⟩
    rw [lookup_entries t none none hw k, hent, List.foldl_append, List.foldl_cons,
      lookupCells_foldl_other post _ k hpost]
    exact lookupCells_insert_self _ k r
  · intro ops k hops
    obtain ⟨t, hEq, hw, hent⟩ := insertAll_wf ops emptyTree wf_emptyTree
    refine ⟨t, hEq, ?_⟩
    rw [lookup_entries t none none hw k, hent, lookupCells_foldl_other ops _ k hops]
    simp only [emptyTree, MTree.entries]
    rfl

/-- C6 (witness): insert keys 1, 2, 3 in order into the empty tree; `lookup 2`
finds the row inserted for key 2, and `lookup 5` on a tree holding only key 1
reports the key as absent. -/
theorem lookup_insert_consistency_witness :
    (∃ t, emptyTree.insertAll
        ([(1, [DBValue.integer 10])] ++ (2, [DBValue.integer 20]) :: [(3, [DBValue.integer 30])])
        = .ok t ∧ t.lookup 2 = some [DBValue.integer 20]) ∧
    (∃ t, emptyTree.insertAll [(1, [DBValue.integer 10])] = .ok t ∧ t.lookup 5 = none) :=
  ⟨lookup_insert_consistency.1 [(1, [DBValue.integer 10])] [(3, [DBValue.integer 30])] 2
      [DBValue.integer 20] (by decide),
    lookup_insert_consistency.2 [(1, [DBValue.integer 10])] 5 (by decide)⟩
